import Mathlib

/-!
Verification of the chromosome-end resolution and aggregation engine of the
telogator2 multi-species statistics scripts.

The development shallowly embeds the three Python source files:

* `stats/tel_allele_stats.py` — `generate_tlens_summary` and its helper
  `calculate_stats`: per-end maximum aggregation of TL_p75 values, the
  autosome/sex-chromosome partition and the descriptive statistics.
* `stats/telogator_qc_stats.py` — `main`: the ambiguous/total/unambiguous
  counters, the found/ambiguous end sets, `natural_sort_key`, and the
  two-column "ambiguous ends / missing end" report body.
* `source/make_tg_multi_species.py` — `convert_fai_to_indexes`: rank
  assignment from an FAI-style index and the synthesized `chrU` record.

Machine-level concerns that the scripts delegate to pandas/numpy floats are
modelled over `ℚ` (exact rationals); where a float-only operation occurs
(square root inside the sample standard deviation) the model keeps its
rational argument under a dedicated constructor rather than inventing a
numeric value.  Python dictionaries are modelled as lookup functions,
Python sets as `Finset String`.
-/

/-! ## Python string primitives

`str.split(',')` and `str.strip()` are modelled directly on character lists
(the inputs are ASCII chromosome labels), so that every definition reduces
inside the kernel. -/

/-- Python `str.strip()`: drop whitespace from both ends. -/
def stripChars (cs : List Char) : List Char :=
  ((cs.dropWhile Char.isWhitespace).reverse.dropWhile Char.isWhitespace).reverse

/-- Python `str.strip()` lifted to strings. -/
def pyStrip (s : String) : String := String.mk (stripChars s.data)

/-- Python `s.split(',')` on the character list: cut at every comma, keeping
empty pieces; the result always has exactly one more piece than there are
commas, so it is never empty. -/
def splitCommaChars : List Char → List (List Char)
  | [] => [[]]
  | c :: rest =>
    match splitCommaChars rest with
    | [] => [[c]]
    | h :: t => if c = ',' then [] :: h :: t else (c :: h) :: t

/-- Python `s.split(',')` lifted to strings. -/
def pySplitComma (s : String) : List String :=
  (splitCommaChars s.data).map String.mk

/-! ## tel_allele_stats.py : aggregation (`generate_tlens_summary`, part 1) -/

/-- One measurement row after `pd.to_numeric(..., errors='coerce')` and
`dropna`: the raw `#chr` field and the (numeric) `TL_p75` value.  Rows whose
`TL_p75` failed numeric coercion are dropped before the aggregation loop in
the source, so they are simply absent from the row list here. -/
structure TRow where
  chr_field : String
  tl : ℚ
deriving DecidableEq, Repr

/-- Python `int(x)` on a numeric value: truncation toward zero.
`Int.tdiv` is Lean's truncating division, matching Python's `int()`. -/
def truncQ (q : ℚ) : ℤ := Int.tdiv q.num q.den

/-- The per-row end list of `generate_tlens_summary`:
`str(row['#chr']).split(',')`, each part stripped, empty parts skipped
(`if not end: continue`). -/
def tlens_ends (s : String) : List String :=
  ((pySplitComma s).map pyStrip).filter (fun p => p ≠ "")

/-- One dictionary update of the aggregation loop:
`max_tl_by_end[end] = max(max_tl_by_end.get(end, -1), tl_p75)`.
The dictionary is modelled as a lookup function `String → Option ℤ`. -/
def updateEnd (m : String → Option ℤ) (v : ℤ) (e : String) : String → Option ℤ :=
  fun k => if k = e then some (max ((m e).getD (-1)) v) else m k

/-- The body of the outer `for index, row in df.iterrows()` loop: every end
of the row is folded through `updateEnd` with the row's truncated value. -/
def rowStep (m : String → Option ℤ) (r : TRow) : String → Option ℤ :=
  (tlens_ends r.chr_field).foldl (fun m e => updateEnd m (truncQ r.tl) e) m

/-- The full `max_tl_by_end` dictionary built by `generate_tlens_summary`
from the surviving rows, starting from the empty dictionary. -/
def max_tl_by_end (rows : List TRow) : String → Option ℤ :=
  rows.foldl rowStep (fun _ => none)

/-- The rows of the table that mention a given end in their `#chr` field. -/
def tlens_rows_mentioning (rows : List TRow) (e : String) : List TRow :=
  rows.filter (fun r => decide (e ∈ tlens_ends r.chr_field))

/-- Modelled from the amended claim: the aggregate maps a mentioned end to
the maximum of the sentinel `-1` (the dictionary default used by the source)
and the truncated values of all rows mentioning the end, and maps an
unmentioned end to nothing. -/
def claimed_max (rows : List TRow) (e : String) : Option ℤ :=
  if tlens_rows_mentioning rows e = [] then none
  else some (((tlens_rows_mentioning rows e).map (fun r => truncQ r.tl)).foldl max (-1))

/-- Modelled from the claim: the value the original claim predicts for a
mentioned end — the maximum, over the rows mentioning it, of the truncated
row value, with no sentinel participating. -/
def claimed_max_strict (rows : List TRow) (e : String) : Option ℤ :=
  match (tlens_rows_mentioning rows e).map (fun r => truncQ r.tl) with
  | [] => none
  | v :: vs => some (vs.foldl max v)

/-! ## telogator_qc_stats.py : end resolution counters (`main`, step 2) -/

/-- The per-row part list of `telogator_qc_stats.main`:
`[p.strip() for p in str(entry).split(',')]`.  Note that, unlike
`tlens_ends`, empty parts are NOT discarded. -/
def qc_parts (s : String) : List String :=
  (pySplitComma s).map pyStrip

/-- The mutable state of the row loop of `telogator_qc_stats.main`. -/
structure QCState where
  found : Finset String
  ambiguous : Finset String
  total : ℕ
  unambiguous : ℕ
deriving DecidableEq

/-- The initial state: empty sets, zero counters. -/
def qc_init : QCState := ⟨∅, ∅, 0, 0⟩

/-- One iteration of `for entry in df[chr_col]`: add `len(parts)` to the
total, either mark every part ambiguous (`len(parts) > 1`) or bump the
unambiguous counter, then add every part to the found set. -/
def qc_row_step (st : QCState) (entry : String) : QCState :=
  let parts := qc_parts entry
  let st1 : QCState := { st with total := st.total + parts.length }
  let st2 : QCState :=
    if parts.length > 1 then
      { st1 with ambiguous := parts.foldl (fun s p => insert p s) st1.ambiguous }
    else
      { st1 with unambiguous := st1.unambiguous + 1 }
  { st2 with found := parts.foldl (fun s p => insert p s) st2.found }

/-- The final state after processing all rows of the `chr` column. -/
def qc_run (rows : List String) : QCState :=
  rows.foldl qc_row_step qc_init

/-- Modelled from the claim: the total the claim predicts, namely the sum
over rows of the number of non-empty trimmed comma-separated parts. -/
def claimed_total (rows : List String) : ℕ :=
  (rows.map (fun r => ((qc_parts r).filter (fun p => p ≠ "")).length)).sum

/-- Modelled from the claim: the unambiguous count the claim predicts,
namely the number of rows with exactly one non-empty trimmed part. -/
def claimed_unambiguous (rows : List String) : ℕ :=
  (rows.filter (fun r => ((qc_parts r).filter (fun p => p ≠ "")).length = 1)).length

/-! ## make_tg_multi_species.py : `convert_fai_to_indexes` -/

/-- Numeric value of a list of ASCII digits. -/
def digitsVal (ds : List Char) : ℕ :=
  ds.foldl (fun n c => 10 * n + (c.toNat - 48)) 0

/-- Python `int(field)` on an already-stripped field: an optional minus sign
followed by one or more ASCII digits (the integer strings an FAI index
carries); anything else fails. -/
def parseIntField (s : String) : Option ℤ :=
  match s.data with
  | [] => none
  | '-' :: ds =>
    if ds ≠ [] && ds.all Char.isDigit then some (-(digitsVal ds : ℤ)) else none
  | ds =>
    if ds.all Char.isDigit then some ((digitsVal ds : ℤ)) else none

/-- Assignment to a Python dictionary, modelled as a lookup function. -/
def dictSet {α : Type} (m : String → Option α) (k : String) (v : α) :
    String → Option α :=
  fun x => if x = k then some v else m x

/-- The running state of `convert_fai_to_indexes`: the two dictionaries, the
auxiliary digit list, and the rank counter (`current_index`, starting at 1). -/
structure FaiState where
  t2t_chromsize : String → Option ℤ
  lexico_2_ind : String → Option ℕ
  chrom_digits : List String
  current_index : ℕ

/-- The state before the line loop. -/
def fai_init : FaiState := ⟨fun _ => none, fun _ => none, [], 1⟩

/-- One line of the FAI file, already split on tabs.  Lines with fewer than
two fields are skipped; the `"chr"`-stripped name is recorded before the
size parse, so a line whose size fails `int(...)` still contributes to
`chrom_digits` but to nothing else. -/
def fai_line_step (st : FaiState) (fields : List String) : FaiState :=
  match fields with
  | chrom_name :: size_field :: _ =>
    let st1 : FaiState :=
      { st with chrom_digits := st.chrom_digits ++ [chrom_name.replace "chr" ""] }
    match parseIntField size_field with
    | none => st1
    | some chrom_size =>
      { st1 with
        t2t_chromsize := dictSet st1.t2t_chromsize chrom_name chrom_size
        lexico_2_ind := dictSet st1.lexico_2_ind chrom_name st1.current_index
        current_index := st1.current_index + 1 }
  | _ => st

/-- The state after the line loop, before the `chrU` synthesis. -/
def fai_fold (lines : List (List String)) : FaiState :=
  lines.foldl fai_line_step fai_init

/-- `convert_fai_to_indexes` on the tab-split lines of the FAI file: run the
loop, then synthesize a `"chrU"` entry at the next unused rank when none was
parsed (`if "chrU" not in lexico_2_ind`). -/
def convert_fai_to_indexes (lines : List (List String)) : FaiState :=
  let st := fai_fold lines
  if (st.lexico_2_ind "chrU").isSome then st
  else { st with lexico_2_ind := dictSet st.lexico_2_ind "chrU" st.current_index }

/-- Whether a line is a successfully parsed record: at least two fields and
an integer size. -/
def fai_parsed (fields : List String) : Bool :=
  match fields with
  | _ :: size_field :: _ => (parseIntField size_field).isSome
  | _ => false

/-- The chromosome name of a (split) line. -/
def fai_name (fields : List String) : String := fields.headD ""

/-- The number of successfully parsed records of the index. -/
def fai_parsed_count (lines : List (List String)) : ℕ :=
  (lines.filter fai_parsed).length

/-! ## tel_allele_stats.py : statistics (`calculate_stats`) -/

/-- One reported statistic value.  `na` is the `'N/A'` sentinel of the empty
branch; `nan` is the float NaN that `series.std(ddof=1)` yields on a
single-element series; `sqrtRounded v` stands for the float square root of
the (exact, rational) sample variance `v`, rounded to two decimals — the
square root itself is a float-only operation and is kept symbolic. -/
inductive SVal
  | na
  | nan
  | num (q : ℚ)
  | sqrtRounded (v : ℚ)
deriving DecidableEq, Repr

/-- The six statistics of `calculate_stats`, in the fixed metric order. -/
structure Stats where
  count : SVal
  min : SVal
  max : SVal
  median : SVal
  mean : SVal
  stdev_sample : SVal
deriving DecidableEq, Repr

/-- The row of sentinels returned for an empty partition. -/
def Stats.allNA : Stats := ⟨.na, .na, .na, .na, .na, .na⟩

/-- Minimum of a list of integers (`series.min()`; the empty case never
reaches this in the source). -/
def listMin : List ℤ → ℤ
  | [] => 0
  | x :: xs => xs.foldl min x

/-- Maximum of a list of integers (`series.max()`). -/
def listMax : List ℤ → ℤ
  | [] => 0
  | x :: xs => xs.foldl max x

/-- Sum of a list of integers. -/
def listSum (xs : List ℤ) : ℤ := xs.foldl (fun a b => a + b) 0

/-- Insertion step of an ascending insertion sort. -/
def insertSorted (x : ℤ) : List ℤ → List ℤ
  | [] => [x]
  | y :: ys => if x ≤ y then x :: y :: ys else y :: insertSorted x ys

/-- Ascending sort, used by the median. -/
def sortInts (l : List ℤ) : List ℤ := l.foldr insertSorted []

/-- The even/odd-aware median of `series.median()`. -/
def medianQ (xs : List ℤ) : ℚ :=
  let s := sortInts xs
  let n := s.length
  if n % 2 = 1 then ((s.getD (n / 2) 0 : ℤ) : ℚ)
  else (((s.getD (n / 2 - 1) 0 : ℤ) : ℚ) + ((s.getD (n / 2) 0 : ℤ) : ℚ)) / 2

/-- The arithmetic mean as an exact rational. -/
def meanQ (xs : List ℤ) : ℚ := (listSum xs : ℚ) / (xs.length : ℚ)

/-- Round-half-to-even to an integer (the tie rule of numpy's `round`). -/
def roundHE (q : ℚ) : ℤ :=
  let f := Int.floor q
  let r := q - (f : ℚ)
  if r < 1 / 2 then f
  else if r > 1 / 2 then f + 1
  else if Even f then f else f + 1

/-- Rounding to two decimal places (`.round(2)`). -/
def round2 (q : ℚ) : ℚ := ((roundHE (q * 100) : ℤ) : ℚ) / 100

/-- The sample variance with the `ddof=1` divisor, as an exact rational
(meaningful only for length at least 2, which is the only place it is used). -/
def sampleVar (xs : List ℤ) : ℚ :=
  ((xs.map (fun x => ((x : ℚ) - meanQ xs) ^ 2)).foldl (fun a b => a + b) 0) /
    ((xs.length : ℚ) - 1)

/-- `calculate_stats` of `tel_allele_stats.py`: on an empty series every
statistic is the `'N/A'` sentinel; otherwise count, extrema, median, the
2-decimal-rounded mean, and the sample standard deviation (float NaN when
the series has a single element, since `ddof=1` divides by zero there). -/
def calculate_stats (series : List ℤ) : Stats :=
  if series = [] then Stats.allNA
  else
    { count := .num (series.length : ℚ)
      min := .num ((listMin series : ℤ) : ℚ)
      max := .num ((listMax series : ℤ) : ℚ)
      median := .num (medianQ series)
      mean := .num (round2 (meanQ series))
      stdev_sample :=
        if series.length = 1 then .nan else .sqrtRounded (sampleVar series) }

/-- Case-insensitive single-character containment:
`str.contains(c, case=False)` of pandas for a one-character pattern. -/
def contains_ci (s : String) (c : Char) : Bool :=
  s.data.any (fun ch => ch.toLower = c.toLower)

/-- The autosome filter of `generate_tlens_summary`: keep an end only when
its identifier contains neither `X` nor `Y`, case-insensitively. -/
def is_autosome (e : String) : Bool :=
  !contains_ci e 'X' && !contains_ci e 'Y'

/-- The autosomes-only partition of the aggregated (end, maximum) entries. -/
def autosome_entries (l : List (String × ℤ)) : List (String × ℤ) :=
  l.filter (fun p => is_autosome p.1)

/-! ## telogator_qc_stats.py : report body (`main`, step 4) -/

/-- The missing-end column cell of row `i`: the literal `"none"` in the
first row when the missing list is empty, the `i`-th entry while it lasts,
and the empty string on the remaining (ragged) rows. -/
def miss_cell (missing : List String) (i : ℕ) : String :=
  if missing = [] then (if i = 0 then "none" else "")
  else missing.getD i ""

/-- The two-column body of the coverage report (ambiguous ends on the left,
missing ends on the right), as the list of cell pairs of
`for i in range(max_rows)`; the fixed-width padding of the source is
presentation only and is not modelled. -/
def report_rows (ambig missing : List String) : List (String × String) :=
  let maxRows := Nat.max ambig.length missing.length
  if maxRows = 0 then [("none", "none")]
  else (List.range maxRows).map (fun i => (ambig.getD i "", miss_cell missing i))

/-! ## telogator_qc_stats.py : `natural_sort_key` -/

/-- Maximal runs of a character list, each tagged with whether it is a run
of ASCII digits (`[0-9]+`, the pattern of the `re.split` call). -/
def groupRuns : List Char → List (Bool × List Char)
  | [] => []
  | c :: cs =>
    match groupRuns cs with
    | [] => [(c.isDigit, [c])]
    | (b, run) :: rest =>
      if b = c.isDigit then (b, c :: run) :: rest
      else (c.isDigit, [c]) :: (b, run) :: rest

/-- `re.split('([0-9]+)', s)` rebuilt from the tagged runs: the pieces
alternate text, digits, text, digits, ..., text, with empty text pieces at
the boundaries (so the result always starts and ends with a possibly empty
non-digit piece).  The two same-tag cases never arise for the output of
`groupRuns` (adjacent runs have distinct tags). -/
def runTokens : List (Bool × List Char) → List String
  | [] => [""]
  | (true, run) :: rest => "" :: String.mk run :: runTokens rest
  | [(false, run)] => [String.mk run]
  | (false, run) :: (true, run2) :: rest =>
      String.mk run :: String.mk run2 :: runTokens rest
  | (false, run) :: (false, run2) :: rest =>
      String.mk run :: runTokens ((false, run2) :: rest)

/-- One element of the Python sort key: `int(text)` for a digit run,
`text.lower()` otherwise. -/
inductive NatKeyElem
  | text (s : String)
  | numval (n : ℕ)
deriving DecidableEq, Repr

/-- The numeric value of a digit run. -/
def digitsToNat (t : String) : ℕ :=
  t.data.foldl (fun n c => 10 * n + (c.toNat - 48)) 0

/-- ASCII lowercasing of a token (`text.lower()`). -/
def lowerToken (t : String) : String := String.mk (t.data.map Char.toLower)

/-- `natural_sort_key` of `telogator_qc_stats.py`:
`[int(text) if text.isdigit() else text.lower() for text in re.split('([0-9]+)', s)]`. -/
def natural_sort_key (s : String) : List NatKeyElem :=
  (runTokens (groupRuns s.data)).map (fun t =>
    if t ≠ "" && t.data.all Char.isDigit then .numval (digitsToNat t)
    else .text (lowerToken t))

/-- Lexicographic comparison of character lists by code point: Python's
string `<`. -/
def charsLt : List Char → List Char → Bool
  | [], [] => false
  | [], _ :: _ => true
  | _ :: _, [] => false
  | a :: as, b :: bs =>
    if a < b then true else if b < a then false else charsLt as bs

/-- Python's `<` on strings (code-point lexicographic). -/
def strLt (a b : String) : Bool := charsLt a.data b.data

/-- Comparison of two key elements.  Python compares equal-kind elements
with the usual orders; comparing an `int` with a `str` raises `TypeError`,
which keys produced by `natural_sort_key` never do at a deciding position
(the token lists alternate kinds in lockstep); the model totalizes that
unreachable case by putting numbers first. -/
def elemLt : NatKeyElem → NatKeyElem → Bool
  | .numval a, .numval b => a < b
  | .text a, .text b => strLt a b
  | .numval _, .text _ => true
  | .text _, .numval _ => false

/-- Python's `<` on key lists: lexicographic over `elemLt`, shorter strict
prefixes first. -/
def keyLt : List NatKeyElem → List NatKeyElem → Bool
  | [], [] => false
  | [], _ :: _ => true
  | _ :: _, [] => false
  | a :: as, b :: bs =>
    if elemLt a b then true else if elemLt b a then false else keyLt as bs

/-- The non-strict natural order used by `sorted(..., key=natural_sort_key)`:
`a` may come before `b` when `b`'s key is not strictly below `a`'s. -/
def natLe (a b : String) : Prop :=
  keyLt (natural_sort_key b) (natural_sort_key a) = false

/-- The non-strict lexical order used by `sort_values(by='Telomere_End')`. -/
def lexLe (a b : String) : Prop := strLt b a = false

instance (a b : String) : Decidable (natLe a b) :=
  inferInstanceAs (Decidable (_ = false))

instance (a b : String) : Decidable (lexLe a b) :=
  inferInstanceAs (Decidable (_ = false))

/-! ## tel_allele_stats.py : read-failure dispatch (`generate_tlens_summary`,
try/except) -/

/-- The two shapes `generate_tlens_summary` accepts: a path string or a
file-like object holding content. -/
inductive InputData
  | path (p : String)
  | filelike (content : String)
deriving DecidableEq, Repr

/-- How an invocation of the summary generator can end: a returned string,
or `sys.exit` with a status code. -/
inductive SummaryResult
  | output (s : String)
  | exitWith (code : ℕ)
deriving DecidableEq, Repr

/-- The `except` branch of the `pd.read_csv` call: a path string aborts the
process with status 1 (after writing to stderr); any other input returns the
`"Error reading data: ..."` string instead. -/
def tlens_read_error_result (input : InputData) (e : String) : SummaryResult :=
  match input with
  | .path _ => .exitWith 1
  | .filelike _ => .output ("Error reading data: " ++ e)

/-! ## Schema checks of the two report generators -/

/-- The fatal column check of `generate_tlens_summary`:
`'#chr' not in df.columns or 'TL_p75' not in df.columns`. -/
def tlens_schema_error (cols : List String) : Bool :=
  !(cols.contains "#chr") || !(cols.contains "TL_p75")

/-- The column chosen by `telogator_qc_stats.main`:
`'#chr' if '#chr' in df.columns else 'chr'`. -/
def qc_chr_col (cols : List String) : String :=
  if cols.contains "#chr" then "#chr" else "chr"

/-- The fatal column check of `telogator_qc_stats.main`:
`chr_col not in df.columns`. -/
def qc_schema_error (cols : List String) : Bool :=
  !(cols.contains (qc_chr_col cols))

/-! # Helper lemmas -/

/-- Two strings with the same character data are equal. -/
theorem stringDataEq {s t : String} (h : s.data = t.data) : s = t :=
  congrArg String.mk h

/-- Splitting on commas never yields an empty list of pieces. -/
theorem splitCommaChars_ne_nil (cs : List Char) : splitCommaChars cs ≠ [] := by
  cases cs with
  | nil => simp [splitCommaChars]
  | cons c rest =>
    simp only [splitCommaChars]
    cases h : splitCommaChars rest with
    | nil => simp
    | cons hh tt =>
      by_cases hc : c = ',' <;> simp [hc]

/-- Every row has at least one part. -/
theorem qc_parts_length_pos (s : String) : 0 < (qc_parts s).length := by
  simp only [qc_parts, pySplitComma, List.map_map, List.length_map]
  exact List.length_pos.mpr (splitCommaChars_ne_nil s.data)

/-- One loop iteration adds the number of parts to the total counter. -/
theorem qc_row_step_total (st : QCState) (r : String) :
    (qc_row_step st r).total = st.total + (qc_parts r).length := by
  by_cases h : (qc_parts r).length > 1 <;> simp [qc_row_step, h]

/-- One loop iteration bumps the unambiguous counter exactly for
single-part rows. -/
theorem qc_row_step_unambiguous (st : QCState) (r : String) :
    (qc_row_step st r).unambiguous =
      st.unambiguous + (if (qc_parts r).length = 1 then 1 else 0) := by
  by_cases h : (qc_parts r).length > 1
  · have h1 : (qc_parts r).length ≠ 1 := by omega
    simp [qc_row_step, h, h1]
  · have h1 : (qc_parts r).length = 1 := by
      have := qc_parts_length_pos r
      omega
    simp [qc_row_step, h, h1]

/-- The total counter over a whole run. -/
theorem qc_fold_total (rows : List String) (st : QCState) :
    (rows.foldl qc_row_step st).total =
      st.total + (rows.map (fun r => (qc_parts r).length)).sum := by
  induction rows generalizing st with
  | nil => simp
  | cons r rows ih =>
    simp [List.foldl_cons, ih, qc_row_step_total, Nat.add_assoc]

/-- The unambiguous counter over a whole run. -/
theorem qc_fold_unambiguous (rows : List String) (st : QCState) :
    (rows.foldl qc_row_step st).unambiguous =
      st.unambiguous + (rows.filter (fun r => (qc_parts r).length = 1)).length := by
  induction rows generalizing st with
  | nil => simp
  | cons r rows ih =>
    simp only [List.foldl_cons, ih, qc_row_step_unambiguous, List.filter_cons]
    by_cases h : (qc_parts r).length = 1
    · simp [h]
      omega
    · simp [h]

/-! # Claims -/

/-- C10: when the summary generator is invoked with a file-like input whose
read fails, it does not terminate the run but returns a string beginning
with `"Error reading data:"`; a read failure exits with status 1 exactly
when the input was a path string. -/
theorem tlens_read_error_dispatch (s e p : String) :
    tlens_read_error_result (.filelike s) e =
      .output ("Error reading data: " ++ e)
    ∧ (∃ rest, ("Error reading data: " ++ e) = "Error reading data:" ++ rest)
    ∧ tlens_read_error_result (.path p) e = .exitWith 1 := by
  refine ⟨rfl, ⟨" " ++ e, ?_⟩, rfl⟩
  have h : ("Error reading data: " : String) = "Error reading data:" ++ " " := by
    decide
  rw [h, String.append_assoc]

/-- C6 counterexample: a header with a `chr` column (but no `#chr`) and a
`TL_p75` column is rejected by the summary generator even though the claim
says both generators accept it; the coverage generator does accept it. -/
theorem schema_chr_column_counterexample :
    tlens_schema_error ["chr", "TL_p75"] = true
    ∧ qc_schema_error ["chr", "TL_p75"] = false := by decide

/-- C6 amended: the coverage report generator accepts a table when `#chr`
or `chr` is present; the summary generator requires literally `#chr`
together with `TL_p75`, so a table offering only `chr` passes the coverage
check but is fatal for the summary check. -/
theorem schema_required_columns_amended (cols : List String) :
    (tlens_schema_error cols = false ↔ ("#chr" ∈ cols ∧ "TL_p75" ∈ cols))
    ∧ (qc_schema_error cols = false ↔ ("#chr" ∈ cols ∨ "chr" ∈ cols)) := by
  constructor
  · simp [tlens_schema_error]
  · by_cases h : "#chr" ∈ cols <;>
      simp [qc_schema_error, qc_chr_col, h]

/-- C2 counterexample: a single row whose end field is empty yields zero
non-empty parts, yet it increments both counters and inserts the empty
string into the found set, contradicting the claim's predicted totals. -/
theorem qc_counters_empty_part_counterexample :
    (qc_run [""]).total = 1 ∧ claimed_total [""] = 0
    ∧ (qc_run [""]).unambiguous = 1 ∧ claimed_unambiguous [""] = 0
    ∧ (qc_run [""]).found = {""} := by decide

/-- C2 amended: the total counter equals the sum over rows of the number of
whitespace-trimmed comma-separated parts with empty parts retained, and the
unambiguous counter equals the number of rows with exactly one such part
(splitting always yields at least one part); a row whose field yields zero
non-empty parts is not a no-op: an empty field contributes its single empty
part to the total and unambiguous counters and to the found set. -/
theorem qc_counters_amended (rows : List String) :
    (qc_run rows).total = (rows.map (fun r => (qc_parts r).length)).sum
    ∧ (qc_run rows).unambiguous =
        (rows.filter (fun r => (qc_parts r).length = 1)).length
    ∧ (∀ st : QCState, qc_row_step st "" =
        { st with total := st.total + 1, unambiguous := st.unambiguous + 1,
                  found := insert "" st.found }) := by
  refine ⟨?_, ?_, fun st => rfl⟩
  · have h := qc_fold_total rows qc_init
    simpa [qc_run, qc_init] using h
  · have h := qc_fold_unambiguous rows qc_init
    simpa [qc_run, qc_init] using h

/-- C4: when the autosomes-only partition is empty, all six statistics are
the `'N/A'` sentinel — not zero and not an error value; the same holds for
the all-ends partition when it is empty. -/
theorem stats_empty_partition_all_na (l : List (String × ℤ))
    (h : autosome_entries l = []) :
    calculate_stats ((autosome_entries l).map Prod.snd) = Stats.allNA
    ∧ (∀ m : List (String × ℤ), m = [] →
        calculate_stats (m.map Prod.snd) = Stats.allNA)
    ∧ Stats.allNA.count = SVal.na
    ∧ decide (SVal.na = SVal.num 0) = false := by
  refine ⟨?_, ?_, rfl, by decide⟩
  · rw [h]; rfl
  · intro m hm; rw [hm]; rfl

/-- C4 witness: a table whose only end is `chrXp` has an empty autosome
partition, and all six statistics come out as the sentinel. -/
theorem stats_empty_partition_all_na_witness :
    calculate_stats ((autosome_entries [("chrXp", (5 : ℤ))]).map Prod.snd) =
      Stats.allNA
    ∧ (∀ m : List (String × ℤ), m = [] →
        calculate_stats (m.map Prod.snd) = Stats.allNA)
    ∧ Stats.allNA.count = SVal.na
    ∧ decide (SVal.na = SVal.num 0) = false :=
  stats_empty_partition_all_na [("chrXp", 5)] (by decide)

/-- Lookup after folding one row's ends through `updateEnd`: a mentioned key
receives the maximum of its previous value (default `-1`) and the row
value; other keys are untouched. -/
theorem foldUpdate_lookup (L : List String) (m : String → Option ℤ) (v : ℤ)
    (e : String) :
    (L.foldl (fun m x => updateEnd m v x) m) e =
      if e ∈ L then some (max ((m e).getD (-1)) v) else m e := by
  induction L generalizing m with
  | nil => simp
  | cons x L ih =>
    rw [List.foldl_cons, ih]
    by_cases hx : e = x
    · subst hx
      have hme : updateEnd m v e e = some (max ((m e).getD (-1)) v) := by
        simp [updateEnd]
      by_cases hmem : e ∈ L <;>
        simp [hmem, hme, max_assoc]
    · have hme : updateEnd m v x e = m e := by
        simp [updateEnd, hx]
      by_cases hmem : e ∈ L <;>
        simp [hmem, hme, hx]

/-- Lookup of the whole aggregation fold, with an arbitrary starting
dictionary: the rows mentioning the key fold their truncated values into
the running maximum seeded by the key's previous value (default `-1`). -/
theorem agg_lookup (rows : List TRow) (m : String → Option ℤ) (e : String) :
    (rows.foldl rowStep m) e =
      if tlens_rows_mentioning rows e = [] then m e
      else some (((tlens_rows_mentioning rows e).map (fun r => truncQ r.tl)).foldl
        max ((m e).getD (-1))) := by
  induction rows generalizing m with
  | nil => simp [tlens_rows_mentioning]
  | cons r rows ih =>
    rw [List.foldl_cons, ih]
    by_cases hr : e ∈ tlens_ends r.chr_field
    · have hstep : rowStep m r e = some (max ((m e).getD (-1)) (truncQ r.tl)) := by
        rw [rowStep, foldUpdate_lookup]
        simp [hr]
      have hfil : tlens_rows_mentioning (r :: rows) e =
          r :: tlens_rows_mentioning rows e := by
        simp [tlens_rows_mentioning, List.filter_cons, hr]
      by_cases hrest : tlens_rows_mentioning rows e = []
      · simp [hfil, hrest, hstep]
      · simp [hfil, hrest, hstep]
    · have hstep : rowStep m r e = m e := by
        rw [rowStep, foldUpdate_lookup]
        simp [hr]
      have hfil : tlens_rows_mentioning (r :: rows) e =
          tlens_rows_mentioning rows e := by
        simp [tlens_rows_mentioning, List.filter_cons, hr]
      simp [hfil, hstep]

/-- C1 counterexample: a single row carrying the value `-5` for `chr1p`
aggregates to `-1` (the dictionary default), not to the row maximum `-5`
the claim predicts, so the claim fails for values below `-1`. -/
theorem tlens_max_negative_value_counterexample :
    max_tl_by_end [⟨"chr1p", -5⟩] "chr1p" = some (-1)
    ∧ truncQ (-5) = -5
    ∧ claimed_max_strict [⟨"chr1p", -5⟩] "chr1p" = some (-5) := by decide

/-- C1 amended: the final aggregate maps every mentioned end to the maximum
of the sentinel `-1` (the `dict.get` default of the source) and the
truncated values of all rows mentioning it — rows listing several ends
contribute their value to every one of them — and maps unmentioned ends to
nothing; the claim as stated holds exactly for values truncating to at
least `-1`, while a smaller value is reported as `-1`. -/
theorem tlens_max_by_end_amended (rows : List TRow) (e : String) :
    max_tl_by_end rows e = claimed_max rows e := by
  rw [max_tl_by_end, agg_lookup, claimed_max]
  rfl

/-- Two single-key updates of the aggregate dictionary commute. -/
theorem updateEnd_comm (m : String → Option ℤ) (v₁ v₂ : ℤ) (e₁ e₂ : String) :
    updateEnd (updateEnd m v₁ e₁) v₂ e₂ = updateEnd (updateEnd m v₂ e₂) v₁ e₁ := by
  funext k
  by_cases h12 : e₁ = e₂
  · subst h12
    by_cases hk : k = e₁ <;>
      simp [updateEnd, hk, max_assoc, max_comm, max_left_comm]
  · by_cases hk1 : k = e₁ <;> by_cases hk2 : k = e₂ <;>
      simp_all [updateEnd]

/-- A single update commutes past folding a whole list of updates. -/
theorem foldUpdate_updateEnd_comm (L : List String) (m : String → Option ℤ)
    (v w : ℤ) (e : String) :
    L.foldl (fun m x => updateEnd m v x) (updateEnd m w e) =
      updateEnd (L.foldl (fun m x => updateEnd m v x) m) w e := by
  induction L generalizing m with
  | nil => rfl
  | cons x L ih =>
    rw [List.foldl_cons, List.foldl_cons, updateEnd_comm, ih]

/-- Folding the updates of two rows in either order gives the same
dictionary. -/
theorem foldfold_comm (L₁ L₂ : List String) (v₁ v₂ : ℤ)
    (m : String → Option ℤ) :
    L₂.foldl (fun m x => updateEnd m v₂ x)
        (L₁.foldl (fun m x => updateEnd m v₁ x) m) =
      L₁.foldl (fun m x => updateEnd m v₁ x)
        (L₂.foldl (fun m x => updateEnd m v₂ x) m) := by
  induction L₁ generalizing m with
  | nil => rfl
  | cons x L₁ ih =>
    rw [List.foldl_cons, List.foldl_cons, ih, foldUpdate_updateEnd_comm]

/-- Row steps of the aggregation loop commute. -/
theorem rowStep_comm (m : String → Option ℤ) (r₁ r₂ : TRow) :
    rowStep (rowStep m r₁) r₂ = rowStep (rowStep m r₂) r₁ := by
  simp only [rowStep]
  exact foldfold_comm _ _ _ _ _

/-- C8: permuting the measurement rows leaves the final end-to-maximum
mapping unchanged. -/
theorem tlens_agg_perm_invariant (rows₁ rows₂ : List TRow)
    (hp : List.Perm rows₁ rows₂) :
    max_tl_by_end rows₁ = max_tl_by_end rows₂ := by
  rw [max_tl_by_end, max_tl_by_end]
  generalize (fun _ : String => (none : Option ℤ)) = m
  induction hp generalizing m with
  | nil => rfl
  | cons x _ ih => rw [List.foldl_cons, List.foldl_cons, ih]
  | swap x y l =>
    rw [List.foldl_cons, List.foldl_cons, List.foldl_cons, List.foldl_cons,
      rowStep_comm]
  | trans _ _ ih₁ ih₂ => rw [ih₁, ih₂]

/-- C8 witness: a concrete two-row table and its reversal aggregate to the
same mapping. -/
theorem tlens_agg_perm_invariant_witness :
    max_tl_by_end [⟨"chr1p", 100⟩, ⟨"chr1p,chr2p", 150⟩] =
      max_tl_by_end [⟨"chr1p,chr2p", 150⟩, ⟨"chr1p", 100⟩] :=
  tlens_agg_perm_invariant _ _ (by decide)

/-- Everything already inserted, and every element of the inserted list,
is in the fold of insertions. -/
theorem mem_foldl_insert (l : List String) (s : Finset String) (x : String)
    (h : x ∈ s ∨ x ∈ l) : x ∈ l.foldl (fun s p => insert p s) s := by
  induction l generalizing s with
  | nil => simpa using h
  | cons p l ih =>
    rw [List.foldl_cons]
    rcases h with h | h
    · exact ih _ (Or.inl (Finset.mem_insert_of_mem h))
    · rcases List.mem_cons.mp h with h | h
      · exact ih _ (Or.inl (by simp [h]))
      · exact ih _ (Or.inr h)

/-- The ambiguous set never loses an element across one loop iteration. -/
theorem qc_row_step_ambiguous_mono (st : QCState) (r x : String)
    (h : x ∈ st.ambiguous) : x ∈ (qc_row_step st r).ambiguous := by
  by_cases hlen : (qc_parts r).length > 1 <;>
    simp only [qc_row_step, hlen, if_true, if_false]
  · exact mem_foldl_insert _ _ _ (Or.inl h)
  · exact h

/-- The ambiguous set never loses an element across the rest of the run. -/
theorem qc_fold_ambiguous_mono (rows : List String) (st : QCState) (x : String)
    (h : x ∈ st.ambiguous) : x ∈ (rows.foldl qc_row_step st).ambiguous := by
  induction rows generalizing st with
  | nil => exact h
  | cons r rows ih =>
    exact ih _ (qc_row_step_ambiguous_mono st r x h)

/-- C9: an end that occurs in any multi-part row is in the final ambiguous
set, whatever the other rows are and wherever the row sits in the table:
once marked, it is never unmarked. -/
theorem qc_ambiguous_monotone (rows : List String) (r e : String)
    (hr : r ∈ rows) (hlen : 1 < (qc_parts r).length) (he : e ∈ qc_parts r) :
    e ∈ (qc_run rows).ambiguous := by
  obtain ⟨l₁, l₂, rfl⟩ := List.append_of_mem hr
  rw [qc_run, List.foldl_append, List.foldl_cons]
  apply qc_fold_ambiguous_mono
  simp only [qc_row_step, hlen, if_true]
  exact mem_foldl_insert _ _ _ (Or.inr he)

/-- C9 witness: `chr1p` appears in the multi-part row `"chr1p,chr2p"` and
ends up in the ambiguous set even though it also appears alone first. -/
theorem qc_ambiguous_monotone_witness :
    "chr1p" ∈ (qc_run ["chr1p", "chr1p,chr2p", "chr1p"]).ambiguous :=
  qc_ambiguous_monotone ["chr1p", "chr1p,chr2p", "chr1p"] "chr1p,chr2p" "chr1p"
    (by decide) (by decide) (by decide)

/-- The rank counter advances exactly on successfully parsed lines. -/
theorem fai_line_step_current_index (st : FaiState) (f : List String) :
    (fai_line_step st f).current_index =
      st.current_index + (if fai_parsed f then 1 else 0) := by
  match f with
  | [] => simp [fai_line_step, fai_parsed]
  | [n] => simp [fai_line_step, fai_parsed]
  | n :: sz :: rest =>
    cases h : parseIntField sz <;>
      simp [fai_line_step, fai_parsed, h]

/-- The rank counter after the loop: its start plus the number of parsed
lines. -/
theorem fai_fold_current_index (lines : List (List String)) (st : FaiState) :
    (lines.foldl fai_line_step st).current_index =
      st.current_index + (lines.filter fai_parsed).length := by
  induction lines generalizing st with
  | nil => simp
  | cons f lines ih =>
    rw [List.foldl_cons, ih, fai_line_step_current_index, List.filter_cons]
    cases h : fai_parsed f
    · simp [h]
    · simp [h]
      omega

/-- A line that is not a parsed record named `name` leaves the rank
dictionary unchanged at `name`. -/
theorem fai_line_step_lookup_other (st : FaiState) (f : List String)
    (name : String) (h : ¬(fai_parsed f = true ∧ fai_name f = name)) :
    (fai_line_step st f).lexico_2_ind name = st.lexico_2_ind name := by
  match f with
  | [] => rfl
  | [n] => rfl
  | n :: sz :: rest =>
    cases hp : parseIntField sz with
    | none => simp [fai_line_step, hp]
    | some v =>
      have hn : name ≠ n := by
        intro heq
        exact h ⟨by simp [fai_parsed, hp], by simp [fai_name, heq]⟩
      simp [fai_line_step, hp, dictSet, hn]

/-- If no line of the index parses to a record named `name`, the whole loop
leaves the rank dictionary unchanged at `name`. -/
theorem fai_fold_lookup_absent (lines : List (List String)) (st : FaiState)
    (name : String)
    (h : ∀ f ∈ lines, ¬(fai_parsed f = true ∧ fai_name f = name)) :
    (lines.foldl fai_line_step st).lexico_2_ind name = st.lexico_2_ind name := by
  induction lines generalizing st with
  | nil => rfl
  | cons f lines ih =>
    rw [List.foldl_cons, ih _ (fun g hg => h g (List.mem_cons_of_mem f hg)),
      fai_line_step_lookup_other st f name (h f (List.mem_cons_self f lines))]

/-- C3: the rank counter starts at 1 and advances only on lines whose
length field parses; when no parsed record is named `chrU`, the synthesized
`chrU` entry gets rank (number of parsed records) + 1, and when `chrU` was
parsed its rank is left untouched by the synthesis step. -/
theorem fai_chrU_rank (lines : List (List String)) :
    ((∀ f ∈ lines, ¬(fai_parsed f = true ∧ fai_name f = "chrU")) →
        (convert_fai_to_indexes lines).lexico_2_ind "chrU" =
          some (fai_parsed_count lines + 1))
    ∧ (∀ r : ℕ, (fai_fold lines).lexico_2_ind "chrU" = some r →
        (convert_fai_to_indexes lines).lexico_2_ind "chrU" = some r)
    ∧ (fai_fold lines).current_index = fai_parsed_count lines + 1 := by
  have hidx : (fai_fold lines).current_index = fai_parsed_count lines + 1 := by
    rw [fai_fold, fai_fold_current_index, fai_parsed_count]
    simp [fai_init, Nat.add_comm]
  refine ⟨?_, ?_, hidx⟩
  · intro h
    have habs : (fai_fold lines).lexico_2_ind "chrU" = none := by
      rw [fai_fold, fai_fold_lookup_absent lines fai_init "chrU" h]
      rfl
    simp only [convert_fai_to_indexes]
    simp [habs, dictSet, hidx]
  · intro r hr
    have hsome : ((fai_fold lines).lexico_2_ind "chrU").isSome = true := by
      rw [hr]
      rfl
    simp only [convert_fai_to_indexes]
    simp [hsome, hr]

/-- C3 witness: a two-line index with one parsed record and one bad length
gives `chrU` rank 2; an index that already names `chrU` keeps its parsed
rank 1. -/
theorem fai_chrU_rank_witness :
    (convert_fai_to_indexes [["chr1", "100"], ["chrX", "bad"]]).lexico_2_ind
        "chrU" = some (fai_parsed_count [["chr1", "100"], ["chrX", "bad"]] + 1)
    ∧ (convert_fai_to_indexes [["chrU", "500"]]).lexico_2_ind "chrU" = some 1 :=
  ⟨(fai_chrU_rank [["chr1", "100"], ["chrX", "bad"]]).1 (by decide),
   (fai_chrU_rank [["chrU", "500"]]).2.1 1 (by decide)⟩

/-- Mapping the constant empty string over any index list is a replicate. -/
theorem map_const_empty (l : List ℕ) :
    l.map (fun _ => ("" : String)) = List.replicate l.length "" := by
  induction l with
  | nil => rfl
  | cons x l ih => simp [ih, List.replicate_succ]

/-- C5 counterexample: with an empty ambiguous listing and the single
missing end `chr1q`, the report body is one row whose ambiguous cell is the
empty string — the claimed symmetric `"none"` designation does not appear. -/
theorem report_none_symmetry_counterexample :
    report_rows [] ["chr1q"] = [("", "chr1q")]
    ∧ decide (("" : String) = "none") = false := by decide

/-- C5 amended: only the missing-end column carries the `"none"`
designation: when the missing listing is empty and the ambiguous one is
not, the missing column shows `"none"` in its first row and empty strings
afterwards; when the ambiguous listing is empty and the missing one is not,
the ambiguous column is entirely empty strings (no `"none"`); when both are
empty a single row shows `"none"` in both columns. -/
theorem report_none_amended (ambig missing : List String) :
    (missing = [] → ambig ≠ [] →
      (report_rows ambig missing).map Prod.snd =
        "none" :: List.replicate (ambig.length - 1) "")
    ∧ (ambig = [] → missing ≠ [] →
      (report_rows ambig missing).map Prod.fst =
        List.replicate missing.length "")
    ∧ (ambig = [] → missing = [] →
      report_rows ambig missing = [("none", "none")]) := by
  refine ⟨?_, ?_, ?_⟩
  · rintro rfl hne
    cases ambig with
    | nil => exact absurd rfl hne
    | cons a as =>
      simp only [report_rows, List.length_cons, List.length_nil, Nat.max_zero]
      rw [if_neg (Nat.succ_ne_zero as.length)]
      rw [List.range_succ_eq_map, List.map_cons, List.map_cons, List.map_map,
        List.map_map]
      congr 1
      calc List.map ((Prod.snd ∘ fun i =>
              ((a :: as).getD i "", miss_cell ([] : List String) i)) ∘ Nat.succ)
            (List.range as.length)
          = List.map (fun _ => ("" : String)) (List.range as.length) :=
            List.map_congr_left (fun i _ => rfl)
        _ = List.replicate ((a :: as).length - 1) "" := by
            rw [map_const_empty, List.length_range]
            simp
  · rintro rfl hne
    cases missing with
    | nil => exact absurd rfl hne
    | cons m ms =>
      simp only [report_rows, List.length_cons, List.length_nil, Nat.zero_max]
      rw [if_neg (Nat.succ_ne_zero ms.length)]
      rw [List.map_map]
      calc List.map (Prod.fst ∘ fun i =>
              (([] : List String).getD i "", miss_cell (m :: ms) i))
            (List.range (ms.length + 1))
          = List.map (fun _ => ("" : String)) (List.range (ms.length + 1)) :=
            List.map_congr_left (fun i _ => rfl)
        _ = List.replicate (ms.length + 1) "" := by
            rw [map_const_empty, List.length_range]
  · rintro rfl rfl
    rfl

/-- C5 amended witness: with two ambiguous ends and no missing end the
missing column is `"none"` then blank; with no ambiguous end and one
missing end the ambiguous column is a single blank cell. -/
theorem report_none_amended_witness :
    (report_rows ["chr1p", "chr2p"] []).map Prod.snd =
      "none" :: List.replicate ((["chr1p", "chr2p"] : List String).length - 1) ""
    ∧ (report_rows [] ["chr1q"]).map Prod.fst =
      List.replicate (["chr1q"] : List String).length "" :=
  ⟨(report_none_amended ["chr1p", "chr2p"] []).1 rfl (by decide),
   (report_none_amended [] ["chr1q"]).2.1 rfl (by decide)⟩

/-- Characters that are each not below the other are equal (code-point
order is linear). -/
theorem char_eq_of_not_lt {c d : Char} (h₁ : ¬c < d) (h₂ : ¬d < c) : c = d :=
  le_antisymm (le_of_not_lt h₂) (le_of_not_lt h₁)

/-- Character lists that are each not below the other are equal. -/
theorem charsLt_asymm_eq (cs : List Char) : ∀ ds : List Char,
    charsLt cs ds = false → charsLt ds cs = false → cs = ds := by
  induction cs with
  | nil =>
    intro ds h₁ h₂
    cases ds with
    | nil => rfl
    | cons d ds => simp [charsLt] at h₁
  | cons c cs ih =>
    intro ds h₁ h₂
    cases ds with
    | nil => simp [charsLt] at h₂
    | cons d ds =>
      by_cases hcd : c < d
      · simp [charsLt, hcd] at h₁
      · by_cases hdc : d < c
        · simp [charsLt, hdc] at h₂
        · have hce : c = d := char_eq_of_not_lt hcd hdc
          subst hce
          rw [ih ds (by simpa [charsLt, hcd] using h₁)
            (by simpa [charsLt, hcd] using h₂)]

/-- Strings that are each not below the other are equal. -/
theorem strLt_asymm_eq (s t : String) (h₁ : strLt s t = false)
    (h₂ : strLt t s = false) : s = t :=
  stringDataEq (charsLt_asymm_eq s.data t.data h₁ h₂)

/-- Key elements that are each not below the other are equal. -/
theorem elemLt_asymm_eq (a b : NatKeyElem) (h₁ : elemLt a b = false)
    (h₂ : elemLt b a = false) : a = b := by
  cases a with
  | text s =>
    cases b with
    | text t => exact congrArg NatKeyElem.text (strLt_asymm_eq s t h₁ h₂)
    | numval m => simp [elemLt] at h₂
  | numval n =>
    cases b with
    | text t => simp [elemLt] at h₁
    | numval m =>
      simp only [elemLt, decide_eq_false_iff_not, not_lt] at h₁ h₂
      exact congrArg NatKeyElem.numval (le_antisymm h₂ h₁)

/-- Sort keys that are each not below the other are equal. -/
theorem keyLt_asymm_eq (k₁ : List NatKeyElem) : ∀ k₂ : List NatKeyElem,
    keyLt k₁ k₂ = false → keyLt k₂ k₁ = false → k₁ = k₂ := by
  induction k₁ with
  | nil =>
    intro k₂ h₁ h₂
    cases k₂ with
    | nil => rfl
    | cons b bs => simp [keyLt] at h₁
  | cons a as ih =>
    intro k₂ h₁ h₂
    cases k₂ with
    | nil => simp [keyLt] at h₂
    | cons b bs =>
      by_cases hab : elemLt a b = true
      · simp [keyLt, hab] at h₁
      · by_cases hba : elemLt b a = true
        · simp [keyLt, hba] at h₂
        · have he : a = b := elemLt_asymm_eq a b
            (Bool.not_eq_true _ ▸ hab) (Bool.not_eq_true _ ▸ hba)
          subst he
          rw [ih bs (by simpa [keyLt, hab] using h₁)
            (by simpa [keyLt, hab] using h₂)]

/-- Two natural-sorted arrangements of the same rows agree, provided the
rows' keys are injective on them (distinct labels that differ only in case
share a key, because the key lowercases text runs). -/
theorem sorted_perm_eq_of_natLe (l₁ : List String) : ∀ l₂ : List String,
    List.Perm l₁ l₂ →
    (∀ x ∈ l₁, ∀ y ∈ l₁, natural_sort_key x = natural_sort_key y → x = y) →
    List.Sorted natLe l₁ → List.Sorted natLe l₂ → l₁ = l₂ := by
  induction l₁ with
  | nil =>
    intro l₂ hp _ _ _
    exact (hp.symm.eq_nil).symm
  | cons a t₁ ih =>
    intro l₂ hp hinj hs₁ hs₂
    cases l₂ with
    | nil => simpa using hp.eq_nil
    | cons b t₂ =>
      by_cases hab : a = b
      · subst hab
        rw [ih t₂ hp.cons_inv
          (fun x hx y hy => hinj x (List.mem_cons_of_mem a hx)
            y (List.mem_cons_of_mem a hy))
          hs₁.of_cons hs₂.of_cons]
      · have ha2 : a ∈ t₂ := by
          rcases List.mem_cons.mp (hp.subset (List.mem_cons_self a t₁)) with h | h
          · exact absurd h hab
          · exact h
        have hb1 : b ∈ t₁ := by
          rcases List.mem_cons.mp
              (hp.symm.subset (List.mem_cons_self b t₂)) with h | h
          · exact absurd h.symm hab
          · exact h
        have hle₁ : natLe a b := (List.sorted_cons.mp hs₁).1 b hb1
        have hle₂ : natLe b a := (List.sorted_cons.mp hs₂).1 a ha2
        have hkey : natural_sort_key a = natural_sort_key b :=
          keyLt_asymm_eq (natural_sort_key a) (natural_sort_key b) hle₂ hle₁
        exact absurd
          (hinj a (List.mem_cons_self a t₁) b (List.mem_cons_of_mem a hb1) hkey)
          hab

/-- Two lexically sorted arrangements of the same rows agree. -/
theorem sorted_perm_eq_of_lexLe (l₁ : List String) : ∀ l₂ : List String,
    List.Perm l₁ l₂ →
    List.Sorted lexLe l₁ → List.Sorted lexLe l₂ → l₁ = l₂ := by
  induction l₁ with
  | nil =>
    intro l₂ hp _ _
    exact (hp.symm.eq_nil).symm
  | cons a t₁ ih =>
    intro l₂ hp hs₁ hs₂
    cases l₂ with
    | nil => simpa using hp.eq_nil
    | cons b t₂ =>
      by_cases hab : a = b
      · subst hab
        rw [ih t₂ hp.cons_inv hs₁.of_cons hs₂.of_cons]
      · have ha2 : a ∈ t₂ := by
          rcases List.mem_cons.mp (hp.subset (List.mem_cons_self a t₁)) with h | h
          · exact absurd h hab
          · exact h
        have hb1 : b ∈ t₁ := by
          rcases List.mem_cons.mp
              (hp.symm.subset (List.mem_cons_self b t₂)) with h | h
          · exact absurd h.symm hab
          · exact h
        have hle₁ : lexLe a b := (List.sorted_cons.mp hs₁).1 b hb1
        have hle₂ : lexLe b a := (List.sorted_cons.mp hs₂).1 a ha2
        exact absurd (strLt_asymm_eq a b hle₂ hle₁) hab

/-- C7: the two report orderings diverge on multi-digit chromosome numbers:
the coverage report's natural sort puts `chr2p` strictly before `chr10p`,
while the summary report's plain lexical sort puts `chr10p` strictly before
`chr2p`; and each ordering determines a unique sorted arrangement of any
end set (for the natural order, of any end set on which the
case-insensitive key is injective), so both are reproducible functions of
the same underlying data. -/
theorem report_orderings_diverge :
    (keyLt (natural_sort_key "chr2p") (natural_sort_key "chr10p") = true
      ∧ keyLt (natural_sort_key "chr10p") (natural_sort_key "chr2p") = false)
    ∧ (strLt "chr10p" "chr2p" = true ∧ strLt "chr2p" "chr10p" = false)
    ∧ (∀ l₁ l₂ : List String, List.Perm l₁ l₂ →
        (∀ x ∈ l₁, ∀ y ∈ l₁, natural_sort_key x = natural_sort_key y → x = y) →
        List.Sorted natLe l₁ → List.Sorted natLe l₂ → l₁ = l₂)
    ∧ (∀ l₁ l₂ : List String, List.Perm l₁ l₂ →
        List.Sorted lexLe l₁ → List.Sorted lexLe l₂ → l₁ = l₂) :=
  ⟨⟨by decide, by decide⟩, ⟨by decide, by decide⟩,
    fun l₁ l₂ hp hinj h₁ h₂ => sorted_perm_eq_of_natLe l₁ l₂ hp hinj h₁ h₂,
    fun l₁ l₂ hp h₁ h₂ => sorted_perm_eq_of_lexLe l₁ l₂ hp h₁ h₂⟩

/-- C7 witness: the naturally sorted and the lexically sorted arrangements
of the end set of the divergence example are each unique. -/
theorem report_orderings_diverge_witness :
    (["chr2p", "chr10p"] : List String) = ["chr2p", "chr10p"]
    ∧ (["chr10p", "chr2p"] : List String) = ["chr10p", "chr2p"] :=
  ⟨report_orderings_diverge.2.2.1 ["chr2p", "chr10p"] ["chr2p", "chr10p"]
      (by decide) (by decide) (by decide) (by decide),
   report_orderings_diverge.2.2.2 ["chr10p", "chr2p"] ["chr10p", "chr2p"]
      (by decide) (by decide) (by decide)⟩
